import Mathlib

/-!
Verification of the Brain memory/retrieval engine of the `local-llm`
repository (`brain.js`, class `BrainService`), via a shallow embedding of the
relevant JavaScript code into Lean.

Modelling conventions:
* JavaScript strings are modelled as `List Char` (`JSString`); `.trim()`,
  `.split(...)`, `.length`, `.substring`, `+` become the corresponding list
  operations defined below.
* Embedding vectors are an abstract type parameter `Emb`: the embedding model
  (`Xenova/all-MiniLM-L6-v2` behind `transformers.js`) is an external
  collaborator, modelled as a function `JSString → Option Emb` in `Env`
  (`none` = the inference call throws).
* The Voy vector index is modelled by the article list it was built from; its
  `search` method is an external collaborator (a function in `Env`).
* IndexedDB (Dexie) operations are modelled as reliable state updates; the
  `memories` table is the list `memories` (insertion order = ascending primary
  key order here), the `metadata` table entry `memoryIdCounter` is the field
  `metadataCounter`.
* Callback invocations (`onStatus`, `onError`, `onMemoryCountChange`) and
  calls into the embedding provider are recorded as an event list so that
  "callback X was invoked" and "the provider was (not) invoked" are provable
  statements.
-/

set_option maxRecDepth 8000

namespace LocalLLM

/-- JavaScript strings, modelled as lists of characters. `s.length` in JS is
`List.length` here (identical for the ASCII/BMP texts in play). -/
abbrev JSString := List Char

/-- JS `String.prototype.trim()`: drop leading and trailing whitespace. -/
def jsTrim (s : JSString) : JSString :=
  ((s.dropWhile Char.isWhitespace).reverse.dropWhile Char.isWhitespace).reverse

/-- Split a string at every character satisfying `p`, keeping (possibly empty)
segments between separators.  This is JS `String.prototype.split` with a
single-character separator class.  (JS `split(/[.!?]+/)` collapses runs of
separators; it differs from this single-character split only by extra empty
segments, which the caller below filters out, so the two agree after the
filter.) -/
def splitOnPred (p : Char → Bool) : JSString → List JSString
  | [] => [[]]
  | c :: rest =>
    match splitOnPred p rest with
    | [] => [[]]
    | seg :: segs => if p c then [] :: seg :: segs else (c :: seg) :: segs

/-- JS `array.join(' ')`. -/
def joinSpace (ws : List JSString) : JSString :=
  List.intercalate [' '] ws

/-- JS `String(n)` for a nonnegative integer. -/
def natToJs (n : Nat) : JSString := (Nat.repr n).data

/-- JS `parseInt(s)` restricted to the nonnegative results the engine can
see (ids are rendered with `String(id)`): trim, then read the maximal leading
digit run; `none` models `NaN`. -/
def jsParseInt? (s : JSString) : Option Nat :=
  let t := jsTrim s
  let digits := t.takeWhile Char.isDigit
  if digits = [] then none
  else some (digits.foldl (fun acc c => acc * 10 + (c.toNat - '0'.toNat)) 0)

/-! ## Document ingestion pipeline: `chunkText` -/

/-- The sentence list of `chunkText`:
`text.split(/[.!?]+/).filter(s => s.trim().length > 0)`. -/
def sentencesOf (text : JSString) : List JSString :=
  (splitOnPred (fun c => c = '.' || c = '!' || c = '?') text).filter
    (fun s => decide (0 < (jsTrim s).length))

/-- The words kept as overlap seed when a chunk is closed:
`currentChunk.split(' ').slice(-Math.floor(overlap / 10))`.
(JS `slice(-0)` is `slice(0)`, i.e. the whole array, hence the `n = 0` case.) -/
def keptWords (overlap : Nat) (currentChunk : JSString) : List JSString :=
  let words := splitOnPred (fun c => c = ' ') currentChunk
  let n := overlap / 10
  if n = 0 then words else words.drop (words.length - n)

/-- One iteration of the `for (const sentence of sentences)` loop of
`chunkText`; the accumulator is `(chunks, currentChunk)`. -/
def chunkStep (maxChunkSize overlap : Nat) (acc : List JSString × JSString)
    (sentence : JSString) : List JSString × JSString :=
  let chunks := acc.1
  let currentChunk := acc.2
  let trimmed := jsTrim sentence
  if trimmed = [] then acc
  else if maxChunkSize < currentChunk.length + trimmed.length ∧ 0 < currentChunk.length then
    (chunks ++ [jsTrim currentChunk], joinSpace (keptWords overlap currentChunk) ++ ' ' :: trimmed)
  else
    (chunks, currentChunk ++ (if currentChunk ≠ [] then '.' :: ' ' :: trimmed else trimmed))

/-- Source method `BrainService.chunkText(text, maxChunkSize = 500, overlap = 50)`. -/
def chunkText (text : JSString) (maxChunkSize : Nat := 500) (overlap : Nat := 50) :
    List JSString :=
  let sentences := sentencesOf text
  let r := sentences.foldl (chunkStep maxChunkSize overlap) ([], [])
  if jsTrim r.2 ≠ [] then r.1 ++ [jsTrim r.2] else r.1

/-! ## The Brain memory engine: data model -/

/-- A row of the `memories` table. `createdAt` (`new Date().toISOString()`) is
modelled as an abstract clock value drawn from the engine's `time` field.
Records created by `addMemory` always carry their embedding (the version-1
schema rows lacking an `embedding`, which `_initVectorIndex` lazily
backfills, cannot be produced by any operation modelled here, so `embedding`
is not optional). -/
structure MemoryRecord (Emb : Type) where
  id : Nat
  text : JSString
  source : JSString
  embedding : Emb
  createdAt : Nat
  deriving DecidableEq, Repr

/-- An entry handed to `new Voy({ embeddings: articles })`. -/
structure VoyArticle (Emb : Type) where
  id : JSString
  title : JSString
  url : JSString
  embeddings : Emb
  deriving DecidableEq, Repr

/-- Errors thrown by the engine's operations. -/
inductive BrainError where
  /-- `throw new Error('Cannot add empty memory')`. -/
  | emptyMemory
  /-- The embedding inference call (`this.embedder(...)`) rejected. -/
  | embeddingFailure
  /-- `this.embedder` is `null` (calling it throws a `TypeError`). -/
  | embedderNotLoaded
  deriving DecidableEq, Repr

/-- Observable collaborator interactions, recorded in order: callback
invocations plus (as an instrument) each call into the embedding provider. -/
inductive BrainEvent where
  | status (msg : JSString)
  | errorCb (msg : JSString)
  | memoryCountChange (n : Nat)
  /-- The embedding provider was invoked on `text`. -/
  | embedCall (text : JSString)
  deriving DecidableEq, Repr

/-- The mutable fields of a `BrainService` instance together with the
persistent database content.  `memories` and `metadataCounter` model the
IndexedDB tables (they survive a restart); everything else is in-memory. -/
structure BrainState (Emb : Type) where
  /-- The `memories` table, in ascending primary-key order. -/
  memories : List (MemoryRecord Emb)
  /-- The persisted `metadata` entry `memoryIdCounter`. -/
  metadataCounter : Nat
  /-- The in-memory field `this.memoryIdCounter`. -/
  memoryIdCounter : Nat
  /-- `this.voyIndex`, represented by the article list it was built from;
  `none` models `null`. -/
  voyIndex : Option (List (VoyArticle Emb))
  /-- `this._embeddingsCache` (a JS `Map`), as an association list in
  insertion order. -/
  embeddingsCache : List (Nat × Emb)
  /-- `this.memoryCount`. -/
  memoryCount : Nat
  /-- `this.isReady`. -/
  isReady : Bool
  /-- `this._paused`. -/
  paused : Bool
  /-- Whether `this.embedder` is non-null. -/
  embedderLoaded : Bool
  /-- Model clock used to mint `createdAt` stamps. -/
  time : Nat
  deriving DecidableEq, Repr

/-- External collaborators: the embedding model, its loader, and Voy search. -/
structure Env (Emb : Type) where
  /-- The embedding model: `none` models the inference call throwing. -/
  embed : JSString → Option Emb
  /-- Whether `pipeline('feature-extraction', ...)` resolves. -/
  loadEmbedderOk : Bool
  /-- `err.message` of the load failure when `loadEmbedderOk = false`. -/
  loadErrorMsg : JSString
  /-- `voyIndex.search(queryEmbedding, k)`: neighbor `(id, distance)` pairs.
  Distances are abstracted to `Int` (their numeric type is irrelevant to the
  claims checked here). -/
  search : List (VoyArticle Emb) → Emb → Nat → List (JSString × Int)

instance {ε α : Type} [DecidableEq ε] [DecidableEq α] : DecidableEq (Except ε α) :=
  fun a b =>
    match a, b with
    | .error e, .error e' => if h : e = e' then .isTrue (by rw [h]) else .isFalse (by simp [h])
    | .ok x, .ok y => if h : x = y then .isTrue (by rw [h]) else .isFalse (by simp [h])
    | .error _, .ok _ => .isFalse (by simp)
    | .ok _, .error _ => .isFalse (by simp)

/-- Outcome of one (async) engine operation: the post-state, the collaborator
events in order, and the resolution (`Except.error` models a rejection). -/
structure BrainResult (Emb : Type) (α : Type) where
  state : BrainState Emb
  events : List BrainEvent
  result : Except BrainError α
  deriving DecidableEq

variable {Emb : Type}

/-- JS `Map.get`: first (unique) binding for `k`. -/
def cacheGet (c : List (Nat × Emb)) (k : Nat) : Option Emb :=
  (c.find? (fun p => p.1 = k)).map (·.2)

/-- JS `Map.set`: replace an existing binding in place, else append. -/
def cacheSet (c : List (Nat × Emb)) (k : Nat) (v : Emb) : List (Nat × Emb) :=
  if c.any (fun p => p.1 = k) then
    c.map (fun p => if p.1 = k then (k, v) else p)
  else c ++ [(k, v)]

/-- Source method `this._embed(text)`: one call into the embedding provider, recorded as an
`embedCall` event.  When `this.embedder` is `null` the call itself throws
before reaching the provider (no event). -/
def embedStep (env : Env Emb) (s : BrainState Emb) (text : JSString) :
    List BrainEvent × Except BrainError Emb :=
  if s.embedderLoaded then
    match env.embed text with
    | some v => ([.embedCall text], .ok v)
    | none => ([.embedCall text], .error .embeddingFailure)
  else ([], .error .embedderNotLoaded)

/-- The article built for a memory inside the index-rebuild loops:
`{ id: String(memory.id), title: memory.text.substring(0, 50),
   url: String(memory.id), embeddings }`. -/
def articleOf (m : MemoryRecord Emb) (e : Emb) : VoyArticle Emb :=
  ⟨natToJs m.id, m.text.take 50, natToJs m.id, e⟩

/-- The rebuild loop of `addMemory`: for each stored memory use the in-memory
cached embedding, falling back to the embedding stored in the record (which
every modelled record has, so the final `await this._embed` fallback is
unreachable) and caching it. Returns the updated cache and the article list. -/
def rebuildFromCache (cache : List (Nat × Emb)) :
    List (MemoryRecord Emb) → List (Nat × Emb) × List (VoyArticle Emb)
  | [] => (cache, [])
  | m :: rest =>
    match cacheGet cache m.id with
    | some e =>
      let r := rebuildFromCache cache rest
      (r.1, articleOf m e :: r.2)
    | none =>
      let r := rebuildFromCache (cacheSet cache m.id m.embedding) rest
      (r.1, articleOf m m.embedding :: r.2)

/-- The loop of `_initVectorIndex`: every modelled record carries its
embedding (`memory.embedding && Array.isArray(memory.embedding)` holds), so
the legacy re-embed/backfill branch is unreachable; each stored embedding is
put into the in-memory cache and turned into an article. -/
def rebuildFromStored (cache : List (Nat × Emb)) :
    List (MemoryRecord Emb) → List (Nat × Emb) × List (VoyArticle Emb)
  | [] => (cache, [])
  | m :: rest =>
    let r := rebuildFromStored (cacheSet cache m.id m.embedding) rest
    (r.1, articleOf m m.embedding :: r.2)

/-- Source method `this._initVectorIndex()` on a state whose records all carry embeddings:
rebuild the Voy index from the store, or leave it `null` when the store is
empty ("Don't create empty Voy index"). -/
def initVectorIndex (s : BrainState Emb) : BrainState Emb :=
  if 0 < s.memories.length then
    let r := rebuildFromStored s.embeddingsCache s.memories
    { s with embeddingsCache := r.1, voyIndex := some r.2 }
  else { s with voyIndex := none }

/-- Source method `this.getCount()` = `this.db.memories.count()`. -/
def getCount (s : BrainState Emb) : Nat := s.memories.length

/-- Source method `addMemory(text, source)` (the optimized version: embedding computed
before any write, record persisted with the trimmed text and its embedding,
counter persisted, full index rebuild from cached embeddings, count callback,
returns `{ id, text }` with the *original* text). -/
def addMemory (env : Env Emb) (s : BrainState Emb) (text source : JSString) :
    BrainResult Emb (Nat × JSString) :=
  if jsTrim text = [] then ⟨s, [], .error .emptyMemory⟩
  else
    let s1 := { s with memoryIdCounter := s.memoryIdCounter + 1 }
    let id := s1.memoryIdCounter
    match embedStep env s1 (jsTrim text) with
    | (evs, .error e) => ⟨s1, evs, .error e⟩
    | (evs, .ok embedding) =>
      let s2 := { s1 with embeddingsCache := cacheSet s1.embeddingsCache id embedding }
      let record : MemoryRecord Emb :=
        ⟨id, jsTrim text, source, embedding, s2.time⟩
      let s3 := { s2 with memories := s2.memories ++ [record], time := s2.time + 1 }
      let s4 := { s3 with metadataCounter := s3.memoryIdCounter }
      let r := rebuildFromCache s4.embeddingsCache s4.memories
      let s5 := { s4 with embeddingsCache := r.1, voyIndex := some r.2,
                          memoryCount := s4.memories.length }
      ⟨s5, evs ++ [.memoryCountChange s5.memoryCount], .ok (id, text)⟩

/-- Status text `Processing chunk ${i}/${total}...` -/
def processingMsg (i total : Nat) : JSString :=
  "Processing chunk ".data ++ natToJs i ++ '/' :: natToJs total ++ "...".data

/-- The `'Brain Ready'` status text. -/
def readyMsg : JSString := "Brain Ready".data

/-- The loop of `addMemories`: sequential `addMemory` calls; the first
rejection aborts the loop and propagates.  Besides the JS-visible outcome the
model also returns the list of results committed before a failure (JS drops
this list when the loop throws; the trace semantics below uses it). -/
def addMemoriesAux (env : Env Emb) (source : JSString) :
    BrainState Emb → List JSString → Nat → Nat →
    BrainState Emb × List BrainEvent × List (Nat × JSString) × Option BrainError
  | s, [], _, _ => (s, [.status readyMsg], [], none)
  | s, t :: rest, i, total =>
    let ev0 := BrainEvent.status (processingMsg (i + 1) total)
    let r := addMemory env s t source
    match r.result with
    | .error e => (r.state, ev0 :: r.events, [], some e)
    | .ok p =>
      let rec' := addMemoriesAux env source r.state rest (i + 1) total
      (rec'.1, ev0 :: r.events ++ rec'.2.1, p :: rec'.2.2.1, rec'.2.2.2)

/-- Source method `addMemories(texts, source)`. -/
def addMemories (env : Env Emb) (s : BrainState Emb) (texts : List JSString)
    (source : JSString) : BrainResult Emb (List (Nat × JSString)) :=
  let r := addMemoriesAux env source s texts 0 texts.length
  ⟨r.1, r.2.1, match r.2.2.2 with
               | some e => .error e
               | none => .ok r.2.2.1⟩

/-- A hit returned by `recall`.  `score = 1 - result.distance` is computed in
the abstract distance type. -/
structure RecallHit where
  id : Nat
  text : JSString
  source : JSString
  score : Int
  createdAt : Nat
  deriving DecidableEq, Repr

/-- Source method `recall(query, k = 3)`.  (Named `recallOp` here because `recall` is a
reserved word in this Lean environment.) -/
def recallOp (env : Env Emb) (s : BrainState Emb) (query : JSString) (k : Nat) :
    BrainResult Emb (List RecallHit) :=
  if jsTrim query = [] then ⟨s, [], .ok []⟩
  else
    match embedStep env s (jsTrim query) with
    | (evs, .error e) => ⟨s, evs, .error e⟩
    | (evs, .ok queryEmbedding) =>
      match s.voyIndex with
      | none => ⟨s, evs, .ok []⟩
      | some idx =>
        let neighbors := env.search idx queryEmbedding k
        let memories := neighbors.filterMap (fun nb =>
          (jsParseInt? nb.1).bind fun i =>
            (s.memories.find? (fun m => m.id = i)).map fun m =>
              ⟨m.id, m.text, m.source, 1 - nb.2, m.createdAt⟩)
        ⟨s, evs, .ok memories⟩

/-- Source method `clear()`. -/
def clear (s : BrainState Emb) : BrainState Emb × List BrainEvent :=
  ({ s with memories := [], metadataCounter := 0, memoryIdCounter := 0,
            voyIndex := none, memoryCount := 0, embeddingsCache := [] },
   [.memoryCountChange 0])

/-- The `'Brain paused (saving memory)'` status text. -/
def pausedMsg : JSString := "Brain paused (saving memory)".data

/-- Source method `pause()`: release the embedder and drop the cache; the Voy index is
retained. -/
def pause (s : BrainState Emb) : BrainState Emb × List BrainEvent :=
  if s.paused then (s, [])
  else ({ s with paused := true, embedderLoaded := false, embeddingsCache := [] },
        [.status pausedMsg])

/-- The `'Resuming brain...'` status text. -/
def resumingMsg : JSString := "Resuming brain...".data

/-- Source method `resume()`: no-op unless paused; otherwise the paused flag is cleared
*before* the try block, the embedder is reloaded if absent, and the index is
rebuilt; a failure is caught, reported through `onError`, and swallowed (the
call still resolves). -/
def resume (env : Env Emb) (s : BrainState Emb) : BrainResult Emb Unit :=
  if ¬ s.paused then ⟨s, [], .ok ()⟩
  else
    let s1 := { s with paused := false }
    let evs0 := [BrainEvent.status resumingMsg]
    if s1.embedderLoaded then
      ⟨initVectorIndex s1, evs0 ++ [.status readyMsg], .ok ()⟩
    else if env.loadEmbedderOk then
      ⟨initVectorIndex { s1 with embedderLoaded := true },
       evs0 ++ [.status readyMsg], .ok ()⟩
    else
      ⟨s1, evs0 ++ [.errorCb env.loadErrorMsg], .ok ()⟩

/-- A restart whose `init()` succeeds: a fresh `BrainService` is constructed
(all in-memory fields at their constructor defaults), `_initDatabase` reads
the persisted tables and restores `memoryIdCounter` from the metadata entry
(`counter?.value || 0`), `_loadEmbedder` succeeds, `_initVectorIndex` rebuilds
the index from the store, and the counts are refreshed. -/
def restart (s : BrainState Emb) : BrainState Emb :=
  let fresh : BrainState Emb :=
    { memories := s.memories, metadataCounter := s.metadataCounter,
      memoryIdCounter := s.metadataCounter, voyIndex := none,
      embeddingsCache := [], memoryCount := 0, isReady := false,
      paused := false, embedderLoaded := false, time := s.time }
  let s1 := initVectorIndex { fresh with embedderLoaded := true }
  { s1 with memoryCount := s1.memories.length, isReady := true }

/-! ## Trace semantics

A trace is a list of engine operations run sequentially against one engine
instance (possibly interrupted by an application restart whose `init()`
succeeds).  `runOp` returns, besides the post-state, the ids assigned by the
successful `add`s the operation performed — the observable needed to state
the id-monotonicity invariant. -/

/-- One user-level operation on the engine. -/
inductive BrainOp where
  | add (text source : JSString)
  | addMany (texts : List JSString) (source : JSString)
  | query (q : JSString) (k : Nat)
  | clear
  | pause
  | resume
  | restart
  deriving DecidableEq, Repr

/-- Run one operation; return the post-state and the ids assigned by the
successful `addMemory` calls inside it (in order). -/
def runOp (env : Env Emb) (s : BrainState Emb) : BrainOp → BrainState Emb × List Nat
  | .add text source =>
    let r := addMemory env s text source
    (r.state, match r.result with | .ok p => [p.1] | .error _ => [])
  | .addMany texts source =>
    let r := addMemoriesAux env source s texts 0 texts.length
    (r.1, r.2.2.1.map (·.1))
  | .query q k => ((recallOp env s q k).state, [])
  | .clear => ((clear s).1, [])
  | .pause => ((pause s).1, [])
  | .resume => ((resume env s).state, [])
  | .restart => (restart s, [])

/-- Run a trace; collect the per-operation assigned-id lists. -/
def runOps (env : Env Emb) : BrainState Emb → List BrainOp → BrainState Emb × List (List Nat)
  | s, [] => (s, [])
  | s, op :: ops =>
    let r := runOp env s op
    let rest := runOps env r.1 ops
    (rest.1, r.2 :: rest.2)

/-- The ids present in the store, in storage order. -/
def recIds (s : BrainState Emb) : List Nat := s.memories.map (·.id)

/-- The id/counter consistency invariant: stored ids are strictly increasing,
the persisted `memoryIdCounter` metadata value is an upper bound of (and,
when nonzero, attained by) the stored ids — i.e. it equals the highest id
ever successfully assigned — and the in-memory counter is at least the
persisted one (it can run ahead after an `add` that failed between the
increment and the write). -/
def CounterInv (s : BrainState Emb) : Prop :=
  List.Chain' (· < ·) (recIds s)
  ∧ (∀ i ∈ recIds s, i ≤ s.metadataCounter)
  ∧ (s.metadataCounter = 0 ∨ s.metadataCounter ∈ recIds s)
  ∧ s.metadataCounter ≤ s.memoryIdCounter

instance (s : BrainState Emb) : Decidable (CounterInv s) := by
  unfold CounterInv; infer_instance

/-! ## Concrete instances used by the witnesses -/

/-- A `Ready` engine state over `Int` "embeddings", fresh database. -/
def readyState : BrainState Int :=
  { memories := [], metadataCounter := 0, memoryIdCounter := 0, voyIndex := none,
    embeddingsCache := [], memoryCount := 0, isReady := true, paused := false,
    embedderLoaded := true, time := 0 }

/-- An environment whose embedding model fails exactly on the text `"b."`
(and whose loader succeeds). -/
def okEnv : Env Int :=
  { embed := fun t => if t = ['b', '.'] then none else some (t.length : Int),
    loadEmbedderOk := true, loadErrorMsg := [],
    search := fun _ _ _ => [] }

/-- An environment whose embedding-model loader fails. -/
def failLoadEnv : Env Int :=
  { embed := fun t => some (t.length : Int),
    loadEmbedderOk := false, loadErrorMsg := "model load failed".data,
    search := fun _ _ _ => [] }

/-- A paused engine holding one record, its embedder released and its (stale)
Voy index retained — the state `pause()` leaves behind. -/
def pausedState : BrainState Int :=
  { memories := [⟨1, ['a'], "manual".data, 1, 0⟩], metadataCounter := 1,
    memoryIdCounter := 1,
    voyIndex := some [⟨natToJs 1, ['a'], natToJs 1, 1⟩],
    embeddingsCache := [], memoryCount := 1, isReady := true, paused := true,
    embedderLoaded := false, time := 1 }

/-- A `Ready` engine holding two records with ids 1 and 2. -/
def twoRecordState : BrainState Int :=
  { memories := [⟨1, ['a'], "manual".data, 1, 0⟩, ⟨2, ['c'], "manual".data, 1, 1⟩],
    metadataCounter := 2, memoryIdCounter := 2,
    voyIndex := some [⟨natToJs 1, ['a'], natToJs 1, 1⟩, ⟨natToJs 2, ['c'], natToJs 2, 1⟩],
    embeddingsCache := [(1, 1), (2, 1)], memoryCount := 2, isReady := true,
    paused := false, embedderLoaded := true, time := 2 }

/-! ## General lemmas about `addMemory` -/

/-- What `addMemory` resolves with, by case on validation and embedding. -/
theorem addMemory_result (env : Env Emb) (s : BrainState Emb) (text source : JSString) :
    (addMemory env s text source).result =
      if jsTrim text = [] then .error .emptyMemory
      else
        match (embedStep env { s with memoryIdCounter := s.memoryIdCounter + 1 }
                (jsTrim text)).2 with
        | .error e => .error e
        | .ok _ => .ok (s.memoryIdCounter + 1, text) := by
  by_cases ht : jsTrim text = []
  · simp [addMemory, ht]
  · rcases hE : embedStep env { s with memoryIdCounter := s.memoryIdCounter + 1 }
        (jsTrim text) with ⟨evs, res⟩
    cases res <;> simp [addMemory, ht, hE]

/-! ## Claim C5 -/

/-- C5: for every empty or whitespace-only `text`, `addMemory(text, source)`
throws `EmptyMemoryError` and leaves the whole engine state unchanged (store,
persisted counter, in-memory counter, Voy index, embedding cache), invoking
no callback and not the embedding provider — the returned result is exactly
the rejection on the unmodified state. -/
theorem addMemory_rejects_empty (env : Env Emb) (s : BrainState Emb)
    (text source : JSString) (h : jsTrim text = []) :
    addMemory env s text source = ⟨s, [], .error .emptyMemory⟩ := by
  simp [addMemory, h]

/-- Witness for C5 at a concrete whitespace-only input. -/
theorem addMemory_rejects_empty_witness :
    jsTrim "  ".data = [] ∧
      addMemory okEnv readyState "  ".data "manual".data =
        ⟨readyState, [], .error .emptyMemory⟩ :=
  ⟨by decide, addMemory_rejects_empty okEnv readyState "  ".data "manual".data (by decide)⟩

/-! ## Claim C7 -/

/-- C7: `recall(query, k)` with an empty or whitespace-only query returns an
empty sequence in any engine state and for any `k`, without throwing, without
touching the state, and without invoking the embedding provider (no
`embedCall` event — the event list is empty). -/
theorem recall_empty_query_empty_result (env : Env Emb) (s : BrainState Emb)
    (query : JSString) (k : Nat) (h : jsTrim query = []) :
    recallOp env s query k = ⟨s, [], .ok []⟩ := by
  simp [recallOp, h]

/-- Witness for C7 at a concrete whitespace-only query on a paused engine. -/
theorem recall_empty_query_empty_result_witness :
    jsTrim " ".data = [] ∧
      recallOp failLoadEnv pausedState " ".data 3 = ⟨pausedState, [], .ok []⟩ :=
  ⟨by decide, recall_empty_query_empty_result failLoadEnv pausedState " ".data 3 (by decide)⟩

/-! ## Claim C8 -/

/-- C8: on a `Ready` engine with zero stored records (hence `voyIndex` is
`null`), `recall` with a non-empty query whose embedding succeeds does invoke
the embedding provider (the `embedCall` event) and then returns an empty
sequence without throwing. -/
theorem recall_no_index_empty_result (env : Env Emb) (s : BrainState Emb)
    (query : JSString) (k : Nat) (v : Emb)
    (hready : s.embedderLoaded = true) (_hmem : s.memories = [])
    (hidx : s.voyIndex = none) (hq : jsTrim query ≠ [])
    (hv : env.embed (jsTrim query) = some v) :
    recallOp env s query k = ⟨s, [.embedCall (jsTrim query)], .ok []⟩ := by
  simp [recallOp, hq, embedStep, hready, hv, hidx]

/-- Witness for C8 on the fresh ready state. -/
theorem recall_no_index_empty_result_witness :
    (readyState.embedderLoaded = true ∧ readyState.memories = [] ∧
      readyState.voyIndex = none ∧ jsTrim "hello".data ≠ [] ∧
      okEnv.embed (jsTrim "hello".data) = some 5) ∧
    recallOp okEnv readyState "hello".data 3 =
      ⟨readyState, [.embedCall (jsTrim "hello".data)], .ok []⟩ :=
  ⟨⟨rfl, rfl, rfl, by decide, by decide⟩,
   recall_no_index_empty_result okEnv readyState "hello".data 3 5 rfl rfl rfl
     (by decide) (by decide)⟩

/-! ## Claim C10 -/

/-- C10: a successful `addMemory` on a text with surrounding whitespace
persists the record with the trimmed text and the embedding computed over the
trimmed text, but returns `{ id, text }` carrying the original untrimmed
text — which therefore differs from the stored text that `recall` would later
hydrate for that id. -/
theorem addMemory_returns_untrimmed_text (env : Env Emb) (s : BrainState Emb)
    (text source : JSString) (v : Emb)
    (hload : s.embedderLoaded = true) (ht : jsTrim text ≠ [])
    (hws : jsTrim text ≠ text) (hv : env.embed (jsTrim text) = some v) :
    (addMemory env s text source).result = .ok (s.memoryIdCounter + 1, text)
    ∧ (addMemory env s text source).state.memories =
        s.memories ++ [⟨s.memoryIdCounter + 1, jsTrim text, source, v, s.time⟩]
    ∧ BrainEvent.embedCall (jsTrim text) ∈ (addMemory env s text source).events
    ∧ text ≠ jsTrim text := by
  refine ⟨?_, ?_, ?_, fun hx => hws hx.symm⟩ <;>
    simp [addMemory, ht, embedStep, hload, hv]

/-- Witness for C10 at `text = " hi "`. -/
theorem addMemory_returns_untrimmed_text_witness :
    (readyState.embedderLoaded = true ∧ jsTrim " hi ".data ≠ [] ∧
      jsTrim " hi ".data ≠ " hi ".data ∧
      okEnv.embed (jsTrim " hi ".data) = some 2) ∧
    (addMemory okEnv readyState " hi ".data "manual".data).result =
      .ok (readyState.memoryIdCounter + 1, " hi ".data) :=
  ⟨⟨rfl, by decide, by decide, by decide⟩,
   (addMemory_returns_untrimmed_text okEnv readyState " hi ".data "manual".data 2
      rfl (by decide) (by decide) (by decide)).1⟩

/-! ## Claim C2 -/

/-- C2: after `clear()` the store is empty (`getCount() = 0`), the persisted
counter metadata is `0`, the Voy index is unset, the embedding cache is
empty, the count-changed callback fires with `0`, and the next successful
`addMemory` — whatever ids existed before — is assigned id `1`. -/
theorem clear_resets_state_and_counter (env : Env Emb) (s : BrainState Emb) :
    (clear s).1.memories = [] ∧ getCount (clear s).1 = 0
    ∧ (clear s).1.metadataCounter = 0 ∧ (clear s).1.voyIndex = none
    ∧ (clear s).1.embeddingsCache = []
    ∧ (clear s).2 = [BrainEvent.memoryCountChange 0]
    ∧ ∀ text source id t,
        (addMemory env (clear s).1 text source).result = .ok (id, t) → id = 1 := by
  refine ⟨rfl, rfl, rfl, rfl, rfl, rfl, fun text source id t h => ?_⟩
  rw [addMemory_result] at h
  split at h
  · simp at h
  · split at h
    · simp_all
    · simp [clear] at h
      exact h.1.symm

/-- Witness for C2: clearing a store that held ids 1 and 2, then adding,
assigns id 1 again. -/
theorem clear_resets_state_and_counter_witness :
    (addMemory okEnv (clear twoRecordState).1 "new memory".data "manual".data).result =
      .ok (1, "new memory".data) ∧ (1 : Nat) = 1 :=
  ⟨by decide,
   (clear_resets_state_and_counter okEnv twoRecordState).2.2.2.2.2.2
     "new memory".data "manual".data 1 "new memory".data (by decide)⟩

/-! ## Claim C9 (corrected) -/

/-- C9 as stated is false: after `resume()` fails to reload the embedding
model, the engine does **not** stay paused (the flag was cleared before the
`try` block), and a subsequent `resume()` **is** a no-op. -/
theorem resume_load_failure_claim_false :
    ¬ ((resume failLoadEnv pausedState).state.paused = true)
    ∧ resume failLoadEnv (resume failLoadEnv pausedState).state =
        ⟨(resume failLoadEnv pausedState).state, [], .ok ()⟩ := by
  constructor
  · decide
  · rfl

/-- C9 amended: when the embedding model fails to load during `resume()` on a
paused engine, the Vector Index is not rebuilt (it keeps its pre-resume
value), the error is surfaced through the error callback and the call itself
resolves without throwing; but the paused flag was already cleared before the
load attempt, so the engine does *not* stay paused and a subsequent
`resume()` is a no-op. -/
theorem resume_load_failure_amended (env : Env Emb) (s : BrainState Emb)
    (hp : s.paused = true) (he : s.embedderLoaded = false)
    (hl : env.loadEmbedderOk = false) :
    resume env s =
      ⟨{ s with paused := false },
       [.status resumingMsg, .errorCb env.loadErrorMsg], .ok ()⟩
    ∧ (resume env s).state.voyIndex = s.voyIndex
    ∧ (resume env s).state.paused = false
    ∧ resume env (resume env s).state = ⟨(resume env s).state, [], .ok ()⟩ := by
  have h1 : resume env s =
      ⟨{ s with paused := false },
       [.status resumingMsg, .errorCb env.loadErrorMsg], .ok ()⟩ := by
    simp [resume, hp, he, hl]
  refine ⟨h1, by rw [h1], by rw [h1], ?_⟩
  rw [h1]
  simp [resume]

/-- Witness for the amended C9 on the concrete paused state. -/
theorem resume_load_failure_amended_witness :
    (pausedState.paused = true ∧ pausedState.embedderLoaded = false ∧
      failLoadEnv.loadEmbedderOk = false) ∧
    (resume failLoadEnv pausedState).state.voyIndex = pausedState.voyIndex :=
  ⟨⟨rfl, rfl, rfl⟩,
   (resume_load_failure_amended failLoadEnv pausedState rfl rfl rfl).2.1⟩

/-! ## Lemmas about `jsTrim` -/

theorem jsTrim_length_le (s : JSString) : (jsTrim s).length ≤ s.length := by
  unfold jsTrim
  rw [List.length_reverse]
  refine le_trans (List.dropWhile_suffix _).sublist.length_le ?_
  rw [List.length_reverse]
  exact (List.dropWhile_suffix _).sublist.length_le

theorem dropWhile_head_not {p : Char → Bool} {l : List Char} :
    ∀ c, (l.dropWhile p).head? = some c → p c = false := by
  induction l with
  | nil => intro c h; simp at h
  | cons a as ih =>
    intro c h
    by_cases hp : p a = true
    · rw [List.dropWhile_cons, if_pos hp] at h
      exact ih c h
    · rw [List.dropWhile_cons, if_neg hp] at h
      simp only [List.head?_cons, Option.some.injEq] at h
      subst h
      simpa using hp

theorem dropWhile_eq_self_of_head {p : Char → Bool} {l : List Char}
    (h : ∀ c, l.head? = some c → p c = false) : l.dropWhile p = l := by
  cases l with
  | nil => rfl
  | cons a as => simp [List.dropWhile_cons, h a rfl]

theorem jsTrim_head_not_ws (s : JSString) :
    ∀ c, (jsTrim s).head? = some c → c.isWhitespace = false := by
  intro c h
  have h0 : (jsTrim s).reverse <:+ (s.dropWhile Char.isWhitespace).reverse := by
    unfold jsTrim
    rw [List.reverse_reverse]
    exact List.dropWhile_suffix _
  obtain ⟨t, ht⟩ := List.reverse_suffix.mp h0
  have hne : jsTrim s ≠ [] := by
    intro hnil
    rw [hnil] at h
    simp at h
  have hX : (s.dropWhile Char.isWhitespace).head? = some c := by
    rw [← ht, List.head?_append_of_ne_nil _ hne, h]
  exact dropWhile_head_not c hX

theorem jsTrim_getLast_not_ws (s : JSString) :
    ∀ c, (jsTrim s).getLast? = some c → c.isWhitespace = false := by
  intro c h
  have h0 : (jsTrim s).getLast? =
      ((s.dropWhile Char.isWhitespace).reverse.dropWhile Char.isWhitespace).head? := by
    unfold jsTrim
    rw [List.getLast?_reverse]
  rw [h0] at h
  exact dropWhile_head_not c h

theorem jsTrim_eq_self {l : JSString}
    (h1 : ∀ c, l.head? = some c → c.isWhitespace = false)
    (h2 : ∀ c, l.getLast? = some c → c.isWhitespace = false) : jsTrim l = l := by
  unfold jsTrim
  rw [dropWhile_eq_self_of_head h1,
    dropWhile_eq_self_of_head (fun c hc => h2 c (by rwa [List.head?_reverse] at hc)),
    List.reverse_reverse]

theorem jsTrim_idem (s : JSString) : jsTrim (jsTrim s) = jsTrim s :=
  jsTrim_eq_self (jsTrim_head_not_ws s) (jsTrim_getLast_not_ws s)

/-! ## Claim C3 (corrected): chunk size bound -/

/-- The input refuting C3 as stated: a 460-character sentence followed by a
40-character sentence. -/
def longTwoSentenceText : JSString :=
  List.replicate 460 'a' ++ ('.' :: ' ' :: (List.replicate 40 'b' ++ ['.']))

/-- C3 as stated is false: on `longTwoSentenceText`, `chunkText` with the
default parameters emits a single 502-character chunk made of *two*
sentences (each of length at most 500), because the `'. '` separator added
when a sentence is appended is not counted by the `maxChunkSize` guard. -/
theorem chunkText_bound_claim_false :
    ¬ (∀ c ∈ chunkText longTwoSentenceText 500 50,
        c.length ≤ 500
        ∨ ∃ s ∈ sentencesOf longTwoSentenceText,
            c = jsTrim s ∧ 500 < (jsTrim s).length) := by
  decide

/-! ## Claim C4: no sentence is dropped

Helper lemmas about contiguous-segment (`<:+:`) containment, then an
instrumented version of the chunking loop that records which trimmed
sentences were placed into which chunk. -/

theorem seg_extend_right {s t u : List Char} (h : s <:+: t) : s <:+: t ++ u := by
  obtain ⟨a, b, rfl⟩ := h
  exact ⟨a, b ++ u, by simp⟩

theorem seg_cons_left {s t : List Char} {d : Char} (h : s <:+: t) : s <:+: d :: t := by
  obtain ⟨a, b, rfl⟩ := h
  exact ⟨d :: a, b, by simp⟩

theorem seg_reverse {s t : List Char} (h : s <:+: t) : s.reverse <:+: t.reverse := by
  obtain ⟨a, b, rfl⟩ := h
  exact ⟨b.reverse, a.reverse, by simp⟩

theorem seg_dropWhile_ws {s : JSString} (hne : s ≠ [])
    (hhead : ∀ c, s.head? = some c → c.isWhitespace = false) :
    ∀ t : JSString, s <:+: t → s <:+: t.dropWhile Char.isWhitespace := by
  intro t h
  obtain ⟨a, b, rfl⟩ := h
  induction a with
  | nil =>
    rcases s with _ | ⟨c, s'⟩
    · exact absurd rfl hne
    · have hc := hhead c rfl
      rw [List.nil_append, List.cons_append, List.dropWhile_cons, hc]
      exact ⟨[], b, by simp⟩
  | cons d a' ih =>
    rw [List.cons_append, List.cons_append, List.dropWhile_cons]
    by_cases hd : d.isWhitespace = true
    · rw [if_pos hd]
      exact ih
    · rw [if_neg hd]
      exact seg_cons_left ⟨a', b, rfl⟩

theorem seg_jsTrim {s t : JSString} (hne : s ≠ [])
    (hhead : ∀ c, s.head? = some c → c.isWhitespace = false)
    (hlast : ∀ c, s.getLast? = some c → c.isWhitespace = false)
    (h : s <:+: t) : s <:+: jsTrim t := by
  have hne' : s.reverse ≠ [] := by
    intro hr
    exact hne (by simpa using congrArg List.reverse hr)
  have hhead' : ∀ c, s.reverse.head? = some c → c.isWhitespace = false :=
    fun c hc => hlast c (by rwa [List.head?_reverse] at hc)
  have h1 : s <:+: t.dropWhile Char.isWhitespace := seg_dropWhile_ws hne hhead t h
  have h2 := seg_reverse h1
  have h3 := seg_dropWhile_ws hne' hhead' _ h2
  have h4 := seg_reverse h3
  rw [List.reverse_reverse] at h4
  exact h4

/-- Left-to-right ends of a placed (trimmed, non-empty) sentence are
non-whitespace; this is what lets a placement survive the `trim()` applied to
a chunk when it is pushed. -/
def noWsEnds (s : JSString) : Prop :=
  s ≠ [] ∧ (∀ c, s.head? = some c → c.isWhitespace = false)
    ∧ (∀ c, s.getLast? = some c → c.isWhitespace = false)

theorem noWsEnds_jsTrim {s : JSString} (h : jsTrim s ≠ []) : noWsEnds (jsTrim s) :=
  ⟨h, jsTrim_head_not_ws s, jsTrim_getLast_not_ws s⟩

theorem jsTrim_eq_nil_all_ws {l : JSString} (h : jsTrim l = []) :
    ∀ c ∈ l, c.isWhitespace = true := by
  unfold jsTrim at h
  rw [List.reverse_eq_nil_iff, List.dropWhile_eq_nil_iff] at h
  intro c hc
  rw [← List.takeWhile_append_dropWhile (p := Char.isWhitespace) (l := l)] at hc
  rcases List.mem_append.mp hc with h1 | h1
  · exact List.mem_takeWhile_imp h1
  · exact h c (List.mem_reverse.mpr h1)

/-- A segment with a non-whitespace character cannot sit inside an
all-whitespace chunk. -/
theorem noWsEnds_seg_jsTrim_ne_nil {s cur : JSString} (hn : noWsEnds s)
    (hseg : s <:+: cur) : jsTrim cur ≠ [] := by
  intro htrim
  obtain ⟨hne, hhead, _⟩ := hn
  rcases s with _ | ⟨c, s'⟩
  · exact hne rfl
  · have hc : c.isWhitespace = false := hhead c rfl
    obtain ⟨a, b, rfl⟩ := hseg
    have hmem : c ∈ a ++ (c :: s') ++ b := by simp
    rw [jsTrim_eq_nil_all_ws htrim c hmem] at hc
    cases hc

/-- Instrumented `chunkStep`: each chunk additionally carries the list of
trimmed sentences placed into it (this ghost data is erased by
`chunkStepI_erase` below and is used only to prove C4). -/
def chunkStepI (maxC overlap : Nat)
    (acc : List (JSString × List JSString) × JSString × List JSString)
    (sentence : JSString) :
    List (JSString × List JSString) × JSString × List JSString :=
  let chunks := acc.1
  let cur := acc.2.1
  let curPl := acc.2.2
  let trimmed := jsTrim sentence
  if trimmed = [] then acc
  else if maxC < cur.length + trimmed.length ∧ 0 < cur.length then
    (chunks ++ [(jsTrim cur, curPl)],
     joinSpace (keptWords overlap cur) ++ ' ' :: trimmed, [trimmed])
  else
    (chunks, cur ++ (if cur ≠ [] then '.' :: ' ' :: trimmed else trimmed),
     curPl ++ [trimmed])

theorem chunkStepI_erase (maxC overlap : Nat)
    (acc : List (JSString × List JSString) × JSString × List JSString)
    (s : JSString) :
    ((chunkStepI maxC overlap acc s).1.map (·.1),
      (chunkStepI maxC overlap acc s).2.1) =
    chunkStep maxC overlap (acc.1.map (·.1), acc.2.1) s := by
  by_cases ht : jsTrim s = []
  · simp [chunkStepI, chunkStep, ht]
  · by_cases hc : maxC < acc.2.1.length + (jsTrim s).length ∧ 0 < acc.2.1.length
    · simp [chunkStepI, chunkStep, ht, hc]
    · simp [chunkStepI, chunkStep, ht, hc]

theorem chunkStepI_fold_erase (maxC overlap : Nat) :
    ∀ (ss : List JSString)
      (acc : List (JSString × List JSString) × JSString × List JSString),
      ((ss.foldl (chunkStepI maxC overlap) acc).1.map (·.1),
        (ss.foldl (chunkStepI maxC overlap) acc).2.1) =
      ss.foldl (chunkStep maxC overlap) (acc.1.map (·.1), acc.2.1) := by
  intro ss
  induction ss with
  | nil => intro acc; rfl
  | cons s rest ih =>
    intro acc
    rw [List.foldl_cons, List.foldl_cons, ih, chunkStepI_erase]

/-- Instrumented `chunkText`. -/
def chunkTextI (text : JSString) (maxC overlap : Nat) :
    List (JSString × List JSString) :=
  let sentences := sentencesOf text
  let r := sentences.foldl (chunkStepI maxC overlap) ([], [], [])
  if jsTrim r.2.1 ≠ [] then r.1 ++ [(jsTrim r.2.1, r.2.2)] else r.1

theorem chunkTextI_erase (text : JSString) (maxC overlap : Nat) :
    (chunkTextI text maxC overlap).map (·.1) = chunkText text maxC overlap := by
  have h := chunkStepI_fold_erase maxC overlap (sentencesOf text) ([], [], [])
  simp only [List.map_nil] at h
  unfold chunkTextI chunkText
  simp only
  rw [← h]
  by_cases hnil :
      jsTrim ((sentencesOf text).foldl (chunkStepI maxC overlap) ([], [], [])).2.1 = []
  · simp [hnil]
  · simp [hnil]

/-! ### Claim C3, amended, via the instrumented chunker

The placement ghost data distinguishes the two genuinely unbounded chunk
shapes (a pass-through single sentence; a chunk closed immediately after it
was seeded, which also holds a single sentence) from every other chunk, for
which the `maxChunkSize + 2` bound really holds. -/

/-- Amended C3 shape of a finished chunk `p.1` with placement `p.2`: at
least one sentence is placed in it; if two or more sentences are placed the
chunk is at most `maxChunkSize + 2` characters long; and a chunk holding
exactly one placed sentence is the trim of that sentence alone (pass-through)
or of an overlap seed — built by the seeding code from some prior chunk
content `w` — followed by that sentence. -/
def chunkBound (maxC overlap : Nat) (S : List JSString)
    (p : JSString × List JSString) : Prop :=
  1 ≤ p.2.length
  ∧ (2 ≤ p.2.length → p.1.length ≤ maxC + 2)
  ∧ (p.2.length = 1 →
       (∃ s ∈ S, p.1 = jsTrim s)
       ∨ ∃ w, ∃ s ∈ S,
           p.1 = jsTrim (joinSpace (keptWords overlap w) ++ ' ' :: jsTrim s))

/-- Loop invariant for the amended C3: the in-progress chunk is empty (with
no placements), or holds exactly one sentence — as a pass-through or with an
overlap seed in front — or holds at least two sentences and is already
bounded by `maxChunkSize + 2`. -/
def curBound (maxC overlap : Nat) (S : List JSString)
    (cur : JSString) (curPl : List JSString) : Prop :=
  (cur = [] ∧ curPl = [])
  ∨ (cur ≠ [] ∧ ∃ s ∈ S, cur = jsTrim s ∧ curPl = [jsTrim s])
  ∨ (cur ≠ [] ∧ ∃ w, ∃ s ∈ S,
       cur = joinSpace (keptWords overlap w) ++ ' ' :: jsTrim s
       ∧ curPl = [jsTrim s])
  ∨ (cur ≠ [] ∧ 2 ≤ curPl.length ∧ cur.length ≤ maxC + 2)

theorem chunkBound_of_curBound {maxC overlap : Nat} {S : List JSString}
    {cur : JSString} {curPl : List JSString}
    (h : curBound maxC overlap S cur curPl) (hne : cur ≠ []) :
    chunkBound maxC overlap S (jsTrim cur, curPl) := by
  rcases h with ⟨h0, _⟩ | ⟨_, s, hs, rfl, rfl⟩ | ⟨_, w, s, hs, rfl, rfl⟩ | ⟨_, h2, h3⟩
  · exact absurd h0 hne
  · exact ⟨by simp, by simp, fun _ => Or.inl ⟨s, hs, jsTrim_idem s⟩⟩
  · exact ⟨by simp, by simp, fun _ => Or.inr ⟨w, s, hs, rfl⟩⟩
  · refine ⟨?_, ?_, ?_⟩
    · show 1 ≤ curPl.length
      omega
    · intro _
      show (jsTrim cur).length ≤ maxC + 2
      exact le_trans (jsTrim_length_le cur) h3
    · intro h1
      exfalso
      have h1' : curPl.length = 1 := h1
      omega

theorem chunkStepI_bound (maxC overlap : Nat) (S : List JSString)
    {acc : List (JSString × List JSString) × JSString × List JSString}
    {s : JSString} (hs : s ∈ S)
    (h1 : ∀ p ∈ acc.1, chunkBound maxC overlap S p)
    (h2 : curBound maxC overlap S acc.2.1 acc.2.2) :
    (∀ p ∈ (chunkStepI maxC overlap acc s).1, chunkBound maxC overlap S p)
    ∧ curBound maxC overlap S (chunkStepI maxC overlap acc s).2.1
        (chunkStepI maxC overlap acc s).2.2 := by
  by_cases hts : jsTrim s = []
  · simp only [chunkStepI, hts, if_pos rfl]
    exact ⟨h1, h2⟩
  · by_cases hc : maxC < acc.2.1.length + (jsTrim s).length ∧ 0 < acc.2.1.length
    · simp only [chunkStepI, if_neg hts, if_pos hc]
      have hne : acc.2.1 ≠ [] := List.length_pos.mp hc.2
      constructor
      · intro p hp
        rcases List.mem_append.mp hp with h | h
        · exact h1 p h
        · rcases List.mem_singleton.mp h with rfl
          exact chunkBound_of_curBound h2 hne
      · right; right; left
        exact ⟨by simp, acc.2.1, s, hs, rfl, rfl⟩
    · simp only [chunkStepI, if_neg hts, if_neg hc]
      refine ⟨h1, ?_⟩
      rcases h2 with ⟨hcur0, hpl0⟩ | ⟨hne, t, ht, hcur, hpl⟩ |
        ⟨hne, w, t, ht, hcur, hpl⟩ | ⟨hne, hlen2, hlenb⟩
      · right; left
        rw [hcur0, hpl0]
        refine ⟨by simpa using hts, s, hs, ?_, ?_⟩ <;> simp
      · have hle : acc.2.1.length + (jsTrim s).length ≤ maxC := by
          rcases Nat.lt_or_ge maxC (acc.2.1.length + (jsTrim s).length) with h | h
          · exact absurd ⟨h, List.length_pos.mpr hne⟩ hc
          · exact h
        right; right; right
        rw [if_pos hne, hpl]
        refine ⟨by simp, by simp, ?_⟩
        rw [List.length_append, List.length_cons, List.length_cons]
        omega
      · have hle : acc.2.1.length + (jsTrim s).length ≤ maxC := by
          rcases Nat.lt_or_ge maxC (acc.2.1.length + (jsTrim s).length) with h | h
          · exact absurd ⟨h, List.length_pos.mpr hne⟩ hc
          · exact h
        right; right; right
        rw [if_pos hne, hpl]
        refine ⟨by simp, by simp, ?_⟩
        rw [List.length_append, List.length_cons, List.length_cons]
        omega
      · have hle : acc.2.1.length + (jsTrim s).length ≤ maxC := by
          rcases Nat.lt_or_ge maxC (acc.2.1.length + (jsTrim s).length) with h | h
          · exact absurd ⟨h, List.length_pos.mpr hne⟩ hc
          · exact h
        right; right; right
        rw [if_pos hne]
        refine ⟨by simp, by simp [hlen2]; omega, ?_⟩
        rw [List.length_append, List.length_cons, List.length_cons]
        omega

theorem chunkStepI_fold_bound (maxC overlap : Nat) (S : List JSString) :
    ∀ (ss : List JSString)
      (acc : List (JSString × List JSString) × JSString × List JSString),
      (∀ p ∈ acc.1, chunkBound maxC overlap S p) →
      curBound maxC overlap S acc.2.1 acc.2.2 →
      (∀ s ∈ ss, s ∈ S) →
      (∀ p ∈ (ss.foldl (chunkStepI maxC overlap) acc).1, chunkBound maxC overlap S p)
      ∧ curBound maxC overlap S (ss.foldl (chunkStepI maxC overlap) acc).2.1
          (ss.foldl (chunkStepI maxC overlap) acc).2.2 := by
  intro ss
  induction ss with
  | nil => exact fun acc h1 h2 _ => ⟨h1, h2⟩
  | cons s rest ih =>
    intro acc h1 h2 hS
    rw [List.foldl_cons]
    have hstep := chunkStepI_bound maxC overlap S (hS s (List.mem_cons_self s rest)) h1 h2
    exact ih _ hstep.1 hstep.2 (fun x hx => hS x (List.mem_cons_of_mem _ hx))

/-- C3, amended: with the default `maxChunkSize = 500`, `overlap = 50`,
every chunk of `chunkText text` into which the loop placed **two or more**
sentences has length at most `502 = maxChunkSize + 2` (the `'. '` separator
is appended after the size guard, which is what refutes the original 500
bound); every chunk holds at least one sentence; and a chunk holding exactly
one sentence — the only chunks exempt from the bound — is the trim of a
single sentence (the pass-through case) or of an overlap seed produced by
the seeding code followed by a single sentence (a chunk closed immediately
after it was seeded).  The first conjunct ties the instrumented chunk list
to `chunkText` itself: dropping the placements gives exactly its output. -/
theorem chunkText_chunk_bound_amended (text : JSString) :
    (chunkTextI text 500 50).map (fun p => p.1) = chunkText text 500 50
    ∧ ∀ p ∈ chunkTextI text 500 50,
        1 ≤ p.2.length
        ∧ (2 ≤ p.2.length → p.1.length ≤ 502)
        ∧ (p.2.length = 1 →
             (∃ s ∈ sentencesOf text, p.1 = jsTrim s)
             ∨ ∃ w, ∃ s ∈ sentencesOf text,
                 p.1 = jsTrim (joinSpace (keptWords 50 w) ++ ' ' :: jsTrim s)) := by
  refine ⟨chunkTextI_erase text 500 50, ?_⟩
  intro p hp
  have main := chunkStepI_fold_bound 500 50 (sentencesOf text) (sentencesOf text)
    ([], [], []) (by intro q hq; simp at hq) (Or.inl ⟨rfl, rfl⟩) (fun s hs => hs)
  have hshape : chunkBound 500 50 (sentencesOf text) p := by
    simp only [chunkTextI] at hp
    split at hp
    · rcases List.mem_append.mp hp with h | h
      · exact main.1 p h
      · rcases List.mem_singleton.mp h with rfl
        refine chunkBound_of_curBound main.2 ?_
        rename_i hcond
        intro h0
        refine hcond ?_
        rw [h0]
        rfl
    · exact main.1 p hp
  exact hshape

/-- Witness for the amended C3: the two-sentence chunk of `"Hi. There."`
carries two placed sentences, so the 502 bound applies to it. -/
theorem chunkText_chunk_bound_amended_witness :
    ("Hi. There".data, [("Hi".data : JSString), "There".data]) ∈
      chunkTextI "Hi. There.".data 500 50
    ∧ 2 ≤ ([("Hi".data : JSString), "There".data]).length
    ∧ ("Hi. There".data : JSString).length ≤ 502 :=
  ⟨by decide, by decide,
   ((chunkText_chunk_bound_amended "Hi. There.".data).2
       ("Hi. There".data, [("Hi".data : JSString), "There".data])
       (by decide)).2.1 (by decide)⟩

/-- The loop invariant for C4: the placements of the pushed chunks followed
by the in-progress placements are exactly the trimmed sentences processed so
far (`done`), every placed sentence sits contiguously inside its chunk, the
in-progress placements sit inside the in-progress chunk and have
non-whitespace ends, and the in-progress placement list is non-empty as soon
as anything has been processed. -/
def InvI (done : List JSString)
    (acc : List (JSString × List JSString) × JSString × List JSString) : Prop :=
  ((acc.1.map (·.2)).flatten ++ acc.2.2 = done)
  ∧ (∀ p ∈ acc.1, ∀ s ∈ p.2, s <:+: p.1)
  ∧ (∀ s ∈ acc.2.2, s <:+: acc.2.1 ∧ noWsEnds s)
  ∧ (done ≠ [] → acc.2.2 ≠ [])

theorem mem_of_getLast_opt {α : Type} {l : List α} {a : α}
    (h : l.getLast? = some a) : a ∈ l := by
  obtain ⟨hne, heq⟩ := List.mem_getLast?_eq_getLast (Option.mem_def.mpr h)
  rw [heq]
  exact List.getLast_mem hne

theorem chunkStepI_inv (maxC overlap : Nat) {done : List JSString}
    {acc : List (JSString × List JSString) × JSString × List JSString}
    {s : JSString} (hinv : InvI done acc) (hs : jsTrim s ≠ []) :
    InvI (done ++ [jsTrim s]) (chunkStepI maxC overlap acc s) := by
  obtain ⟨hjoin, hpushed, hcur, hne⟩ := hinv
  by_cases hc : maxC < acc.2.1.length + (jsTrim s).length ∧ 0 < acc.2.1.length
  · simp only [chunkStepI, if_neg hs, if_pos hc]
    refine ⟨?_, ?_, ?_, ?_⟩
    · simp only [List.map_append, List.map_cons, List.map_nil, List.flatten_append,
        List.flatten_cons, List.flatten_nil, List.append_nil]
      rw [← hjoin, List.append_assoc]
    · intro p hp
      rcases List.mem_append.mp hp with h | h
      · exact hpushed p h
      · rcases List.mem_singleton.mp h with rfl
        intro s' hs'
        obtain ⟨hseg, hnws⟩ := hcur s' hs'
        exact seg_jsTrim hnws.1 hnws.2.1 hnws.2.2 hseg
    · intro s' hs'
      rcases List.mem_singleton.mp hs' with rfl
      refine ⟨⟨joinSpace (keptWords overlap acc.2.1) ++ [' '], [], by simp⟩,
        noWsEnds_jsTrim hs⟩
    · intro _
      simp
  · simp only [chunkStepI, if_neg hs, if_neg hc]
    refine ⟨?_, hpushed, ?_, ?_⟩
    · rw [← List.append_assoc, hjoin]
    · intro s' hs'
      rcases List.mem_append.mp hs' with h | h
      · obtain ⟨hseg, hnws⟩ := hcur s' h
        exact ⟨seg_extend_right hseg, hnws⟩
      · rcases List.mem_singleton.mp h with rfl
        refine ⟨?_, noWsEnds_jsTrim hs⟩
        by_cases hnil : acc.2.1 = []
        · rw [hnil]
          exact ⟨[], [], by simp⟩
        · rw [if_pos hnil]
          exact ⟨acc.2.1 ++ ['.', ' '], [], by simp⟩
    · intro _
      simp

theorem chunkStepI_fold_inv (maxC overlap : Nat) :
    ∀ (ss : List JSString) (done : List JSString)
      (acc : List (JSString × List JSString) × JSString × List JSString),
      InvI done acc → (∀ s ∈ ss, jsTrim s ≠ []) →
      InvI (done ++ ss.map jsTrim) (ss.foldl (chunkStepI maxC overlap) acc) := by
  intro ss
  induction ss with
  | nil =>
    intro done acc h _
    simpa using h
  | cons s rest ih =>
    intro done acc h hss
    rw [List.foldl_cons, List.map_cons]
    have h1 := chunkStepI_inv maxC overlap h
      (hss s (List.mem_cons_self s rest))
    have h2 := ih (done ++ [jsTrim s]) _ h1
      (fun x hx => hss x (List.mem_cons_of_mem _ hx))
    rw [List.append_assoc] at h2
    simpa using h2

theorem sentencesOf_trim_ne_nil (text : JSString) :
    ∀ s ∈ sentencesOf text, jsTrim s ≠ [] := by
  intro s hs hnil
  have hp := List.of_mem_filter hs
  rw [hnil] at hp
  simp at hp

/-- C4: the chunk sequence of `chunkText(text)` contains every non-empty
(non-whitespace-only) sentence of the input, where sentences are the units
obtained by splitting on `.`, `!`, `?` boundaries: there is a placement of
the trimmed sentences into the chunks, one placement list per chunk, whose
concatenation in chunk order is exactly the trimmed-sentence sequence in
original order (so no sentence is dropped and the order is preserved;
whitespace-only sentences are exactly the ones filtered out), and every
placed sentence occurs contiguously inside its chunk.  Moreover whenever any
sentence survives at all, the final (partial) chunk is emitted: the last
sentence occurs in the last chunk. -/
theorem chunkText_preserves_sentences (text : JSString) :
    (∃ pl : List (List JSString),
       pl.length = (chunkText text 500 50).length
       ∧ pl.flatten = (sentencesOf text).map jsTrim
       ∧ ∀ p ∈ pl.zip (chunkText text 500 50), ∀ s ∈ p.1, s <:+: p.2)
    ∧ (∀ s, ((sentencesOf text).map jsTrim).getLast? = some s →
        ∃ c, (chunkText text 500 50).getLast? = some c ∧ s <:+: c) := by
  have hinv : InvI ((sentencesOf text).map jsTrim)
      ((sentencesOf text).foldl (chunkStepI 500 50) ([], [], [])) := by
    have h0 : InvI [] (([], [], []) :
        List (JSString × List JSString) × JSString × List JSString) :=
      ⟨rfl, by simp, by simp, by simp⟩
    have h := chunkStepI_fold_inv 500 50 (sentencesOf text) [] _ h0
      (sentencesOf_trim_ne_nil text)
    simpa using h
  obtain ⟨hjoin, hpushed, hcur, hne⟩ := hinv
  have herase := chunkTextI_erase text 500 50
  have hdef : chunkTextI text 500 50 =
      (if jsTrim ((sentencesOf text).foldl (chunkStepI 500 50) ([], [], [])).2.1 ≠ []
       then ((sentencesOf text).foldl (chunkStepI 500 50) ([], [], [])).1 ++
         [(jsTrim ((sentencesOf text).foldl (chunkStepI 500 50) ([], [], [])).2.1,
           ((sentencesOf text).foldl (chunkStepI 500 50) ([], [], [])).2.2)]
       else ((sentencesOf text).foldl (chunkStepI 500 50) ([], [], [])).1) := rfl
  set F := (sentencesOf text).foldl (chunkStepI 500 50) ([], [], []) with hFdef
  constructor
  · refine ⟨(chunkTextI text 500 50).map (·.2), ?_, ?_, ?_⟩
    · rw [← herase]
      simp
    · rw [hdef]
      by_cases hnil : jsTrim F.2.1 = []
      · have hplnil : F.2.2 = [] := by
          rcases hF22 : F.2.2 with _ | ⟨s0, rest0⟩
          · rfl
          · obtain ⟨hseg, hnws⟩ := hcur s0 (by rw [hF22]; exact List.mem_cons_self s0 rest0)
            exact absurd hnil (noWsEnds_seg_jsTrim_ne_nil hnws hseg)
        rw [if_neg (by simpa using hnil)]
        rw [← hjoin, hplnil, List.append_nil]
      · rw [if_pos hnil]
        simp only [List.map_append, List.map_cons, List.map_nil, List.flatten_append,
          List.flatten_cons, List.flatten_nil, List.append_nil]
        exact hjoin
    · intro p hp
      rw [← herase, List.zip_map'] at hp
      obtain ⟨x, hx, rfl⟩ := List.mem_map.mp hp
      intro s hsx
      rw [hdef] at hx
      by_cases hnil : jsTrim F.2.1 = []
      · rw [if_neg (by simpa using hnil)] at hx
        exact hpushed x hx s hsx
      · rw [if_pos hnil] at hx
        rcases List.mem_append.mp hx with h | h
        · exact hpushed x h s hsx
        · rcases List.mem_singleton.mp h with rfl
          obtain ⟨hseg, hnws⟩ := hcur s hsx
          exact seg_jsTrim hnws.1 hnws.2.1 hnws.2.2 hseg
  · intro s hs
    have hts_ne : ((sentencesOf text).map jsTrim) ≠ [] := by
      intro h0
      rw [h0] at hs
      simp at hs
    have hpl_ne : F.2.2 ≠ [] := hne hts_ne
    have hs_mem : s ∈ F.2.2 := by
      have hlast : F.2.2.getLast? = some s := by
        rw [← hjoin, List.getLast?_append] at hs
        rcases hF22 : F.2.2.getLast? with _ | a
        · exact absurd hF22 (by
            intro hnone
            exact hpl_ne (List.getLast?_eq_none_iff.mp hnone))
        · rw [hF22] at hs
          simpa using hs
      exact mem_of_getLast_opt hlast
    obtain ⟨hseg, hnws⟩ := hcur s hs_mem
    have hnil : jsTrim F.2.1 ≠ [] := noWsEnds_seg_jsTrim_ne_nil hnws hseg
    refine ⟨jsTrim F.2.1, ?_, seg_jsTrim hnws.1 hnws.2.1 hnws.2.2 hseg⟩
    rw [← herase, hdef, if_pos hnil]
    simp

/-- Witness for C4 on a concrete two-sentence input. -/
theorem chunkText_preserves_sentences_witness :
    ((sentencesOf "Hi. There.".data).map jsTrim).getLast? = some "There".data
    ∧ ∃ c, (chunkText "Hi. There.".data 500 50).getLast? = some c
        ∧ "There".data <:+: c :=
  ⟨by decide,
   (chunkText_preserves_sentences "Hi. There.".data).2 "There".data (by decide)⟩

/-! ## Claim C6: partial failure of `addMemories` -/

theorem addMemory_error_state {env : Env Emb} {s : BrainState Emb}
    {t src : JSString} {e : BrainError}
    (h : (addMemory env s t src).result = .error e) :
    (addMemory env s t src).state.memories = s.memories := by
  by_cases ht : jsTrim t = []
  · simp [addMemory, ht]
  · rcases hE : embedStep env { s with memoryIdCounter := s.memoryIdCounter + 1 }
        (jsTrim t) with ⟨evs, res⟩
    cases res with
    | error e' => simp [addMemory, ht, hE]
    | ok v => simp [addMemory, ht, hE] at h

theorem addMemory_ok_memories {env : Env Emb} {s : BrainState Emb}
    {t src : JSString} {p : Nat × JSString}
    (h : (addMemory env s t src).result = .ok p) :
    ∃ rec, (addMemory env s t src).state.memories = s.memories ++ [rec] := by
  by_cases ht : jsTrim t = []
  · simp [addMemory, ht] at h
  · rcases hE : embedStep env { s with memoryIdCounter := s.memoryIdCounter + 1 }
        (jsTrim t) with ⟨evs, res⟩
    cases res with
    | error e' => simp [addMemory, ht, hE] at h
    | ok v =>
      exact ⟨⟨s.memoryIdCounter + 1, jsTrim t, src, v, s.time⟩,
        by simp [addMemory, ht, hE]⟩

/-- The state, committed-results and error outcome of the `addMemories` loop
do not depend on the progress-message counters `i` and `total`. -/
theorem addMemoriesAux_core_indep (env : Env Emb) (source : JSString) :
    ∀ (ts : List JSString) (s : BrainState Emb) (i j total total' : Nat),
      ((addMemoriesAux env source s ts i total).1,
        (addMemoriesAux env source s ts i total).2.2) =
      ((addMemoriesAux env source s ts j total').1,
        (addMemoriesAux env source s ts j total').2.2) := by
  intro ts
  induction ts with
  | nil => intros; rfl
  | cons t rest ih =>
    intro s i j total total'
    rcases hr : (addMemory env s t source).result with e | p
    · simp [addMemoriesAux, hr]
    · simp only [addMemoriesAux, hr]
      have hih := ih (addMemory env s t source).state (i + 1) (j + 1) total total'
      have h1 := congrArg Prod.fst hih
      have h2 := congrArg Prod.snd hih
      simp only at h1 h2
      rw [h1, h2]

/-- Loop-level statement for C6, by induction over the text list; `i` and
`total` are the progress counters the loop threads through. -/
theorem addMemoriesAux_spec (env : Env Emb) (source : JSString) :
    ∀ (texts : List JSString) (s : BrainState Emb) (i total : Nat),
      ((addMemoriesAux env source s texts i total).2.2.2 = none →
        (addMemoriesAux env source s texts i total).2.2.1.length = texts.length
        ∧ (addMemoriesAux env source s texts i total).1.memories.length =
            s.memories.length + texts.length)
      ∧ ∀ e, (addMemoriesAux env source s texts i total).2.2.2 = some e →
        ∃ n, ∃ hn : n < texts.length,
          (addMemoriesAux env source s (texts.take n) i total).2.2.2 = none
          ∧ (addMemoriesAux env source s (texts.take n) i total).2.2.1.length = n
          ∧ (addMemory env (addMemoriesAux env source s (texts.take n) i total).1
               (texts.get ⟨n, hn⟩) source).result = .error e
          ∧ (addMemoriesAux env source s texts i total).1 =
              (addMemory env (addMemoriesAux env source s (texts.take n) i total).1
                (texts.get ⟨n, hn⟩) source).state
          ∧ (addMemoriesAux env source s texts i total).1.memories =
              (addMemoriesAux env source s (texts.take n) i total).1.memories
          ∧ (addMemoriesAux env source s texts i total).1.memories.length =
              s.memories.length + n := by
  intro texts
  induction texts with
  | nil =>
    intro s i total
    refine ⟨fun _ => ⟨rfl, by simp [addMemoriesAux]⟩, fun e he => ?_⟩
    simp [addMemoriesAux] at he
  | cons t rest ih =>
    intro s i total
    rcases hr : (addMemory env s t source).result with e0 | p
    · -- the very first add fails
      refine ⟨fun hnone => ?_, fun e he => ?_⟩
      · simp [addMemoriesAux, hr] at hnone
      · have he0 : e0 = e := by
          simp [addMemoriesAux, hr] at he
          exact he
        subst he0
        refine ⟨0, Nat.succ_pos _, ?_, ?_, ?_, ?_, ?_, ?_⟩
        · simp [addMemoriesAux]
        · simp [addMemoriesAux]
        · simpa [addMemoriesAux] using hr
        · simp [addMemoriesAux, hr]
        · simp only [List.take_zero]
          have hmem := addMemory_error_state (e := e0) hr
          simp [addMemoriesAux, hr, hmem]
        · have hmem := addMemory_error_state (e := e0) hr
          simp [addMemoriesAux, hr, hmem]
    · -- the first add succeeds; use the induction hypothesis on the rest
      have hstep := addMemory_ok_memories (p := p) hr
      obtain ⟨rec0, hrec0⟩ := hstep
      have hIH := ih (addMemory env s t source).state (i + 1) total
      refine ⟨fun hnone => ?_, fun e he => ?_⟩
      · have hnone' : (addMemoriesAux env source (addMemory env s t source).state
            rest (i + 1) total).2.2.2 = none := by
          simp only [addMemoriesAux, hr] at hnone
          exact hnone
        obtain ⟨hlen, hmem⟩ := hIH.1 hnone'
        constructor
        · simp only [addMemoriesAux, hr]
          simp [hlen]
        · simp only [addMemoriesAux, hr]
          rw [hmem, hrec0]
          simp [Nat.add_assoc, Nat.add_comm 1 rest.length]
      · have he' : (addMemoriesAux env source (addMemory env s t source).state
            rest (i + 1) total).2.2.2 = some e := by
          simp only [addMemoriesAux, hr] at he
          exact he
        obtain ⟨n, hn, ha, hb, hcerr, hd, hmems, hlen⟩ := hIH.2 e he'
        refine ⟨n + 1, Nat.succ_lt_succ hn, ?_, ?_, ?_, ?_, ?_, ?_⟩
        · rw [List.take_succ_cons]
          simp only [addMemoriesAux, hr]
          exact ha
        · rw [List.take_succ_cons]
          simp only [addMemoriesAux, hr]
          simp [hb]
        · rw [List.take_succ_cons]
          simp only [addMemoriesAux, hr]
          simpa using hcerr
        · rw [List.take_succ_cons]
          simp only [addMemoriesAux, hr]
          simpa using hd
        · rw [List.take_succ_cons]
          simp only [addMemoriesAux, hr]
          simpa using hmems
        · simp only [addMemoriesAux, hr]
          rw [hlen, hrec0]
          simp [Nat.add_assoc, Nat.add_comm 1 n]

/-- C6: `addMemories(texts, source)` applies `addMemory` to each text
sequentially in list order.  On success every text is committed.  If the
`n+1`-st add fails (e.g. its embedding call throws), no later text is
processed: the final state is exactly the state left by the failing add, the
error is surfaced to the caller, and the `n` records committed before the
failure remain persisted with no rollback, so `getCount` afterwards returns
the prior count plus `n`. -/
theorem addMemories_partial_failure (env : Env Emb) (s : BrainState Emb)
    (texts : List JSString) (source : JSString) :
    (∀ ps, (addMemories env s texts source).result = .ok ps →
       ps.length = texts.length
       ∧ getCount (addMemories env s texts source).state =
           getCount s + texts.length)
    ∧ (∀ e, (addMemories env s texts source).result = .error e →
       ∃ n, ∃ hn : n < texts.length,
         (∃ ps, (addMemories env s (texts.take n) source).result = .ok ps
            ∧ ps.length = n)
         ∧ (addMemory env (addMemories env s (texts.take n) source).state
              (texts.get ⟨n, hn⟩) source).result = .error e
         ∧ (addMemories env s texts source).state =
             (addMemory env (addMemories env s (texts.take n) source).state
               (texts.get ⟨n, hn⟩) source).state
         ∧ (addMemories env s texts source).state.memories =
             (addMemories env s (texts.take n) source).state.memories
         ∧ getCount (addMemories env s texts source).state = getCount s + n) := by
  have hspec := addMemoriesAux_spec env source texts s 0 texts.length
  constructor
  · intro ps hok
    rcases herr : (addMemoriesAux env source s texts 0 texts.length).2.2.2 with _ | e
    · have hps : ps = (addMemoriesAux env source s texts 0 texts.length).2.2.1 := by
        simp [addMemories, herr] at hok
        exact hok.symm
      obtain ⟨hlen, hmem⟩ := hspec.1 herr
      subst hps
      refine ⟨hlen, ?_⟩
      simpa [addMemories, getCount] using hmem
    · simp [addMemories, herr] at hok
  · intro e herr'
    rcases herr : (addMemoriesAux env source s texts 0 texts.length).2.2.2 with _ | e0
    · simp [addMemories, herr] at herr'
    · have he : e0 = e := by
        simp [addMemories, herr] at herr'
        exact herr'
      subst he
      obtain ⟨n, hn, ha, hb, hcerr, hd, hmems, hlen⟩ := hspec.2 e0 herr
      have hcore := addMemoriesAux_core_indep env source (texts.take n) s 0 0
        texts.length (texts.take n).length
      rw [Prod.mk.injEq] at hcore
      obtain ⟨hc1, hc2⟩ := hcore
      have hBerr : (addMemoriesAux env source s (texts.take n) 0
          (texts.take n).length).2.2.2 = none := by
        rw [← hc2]
        exact ha
      have hBlen : (addMemoriesAux env source s (texts.take n) 0
          (texts.take n).length).2.2.1.length = n := by
        rw [← hc2]
        exact hb
      have hBstate : (addMemories env s (texts.take n) source).state =
          (addMemoriesAux env source s (texts.take n) 0 texts.length).1 := by
        simp only [addMemories]
        exact hc1.symm
      refine ⟨n, hn, ?_, ?_, ?_, ?_, ?_⟩
      · refine ⟨(addMemoriesAux env source s (texts.take n) 0
          (texts.take n).length).2.2.1, ?_, hBlen⟩
        simp only [addMemories]
        rw [hBerr]
      · rw [hBstate]
        exact hcerr
      · rw [hBstate]
        simp only [addMemories]
        exact hd
      · rw [hBstate]
        simp only [addMemories]
        exact hmems
      · simpa [addMemories, getCount] using hlen

/-- The three-chunk document of the C6 scenario; `okEnv` fails exactly on the
second text. -/
def abcTexts : List JSString := ["a.".data, "b.".data, "c.".data]

/-- Witness for C6: with three texts whose second embedding fails, exactly
one record is committed, the error is surfaced, and `getCount` returns 1. -/
theorem addMemories_partial_failure_witness :
    (addMemories okEnv readyState abcTexts "document".data).result =
      .error .embeddingFailure
    ∧ getCount (addMemories okEnv readyState abcTexts "document".data).state = 1
    ∧ (∃ n, ∃ hn : n < abcTexts.length,
        (∃ ps, (addMemories okEnv readyState (abcTexts.take n) "document".data).result
            = .ok ps ∧ ps.length = n)
        ∧ (addMemory okEnv
             (addMemories okEnv readyState (abcTexts.take n) "document".data).state
             (abcTexts.get ⟨n, hn⟩) "document".data).result =
            .error .embeddingFailure
        ∧ (addMemories okEnv readyState abcTexts "document".data).state =
            (addMemory okEnv
              (addMemories okEnv readyState (abcTexts.take n) "document".data).state
              (abcTexts.get ⟨n, hn⟩) "document".data).state
        ∧ (addMemories okEnv readyState abcTexts "document".data).state.memories =
            (addMemories okEnv readyState (abcTexts.take n) "document".data).state.memories
        ∧ getCount (addMemories okEnv readyState abcTexts "document".data).state =
            getCount readyState + n) :=
  ⟨by decide, by decide,
   (addMemories_partial_failure okEnv readyState abcTexts "document".data).2
     .embeddingFailure (by decide)⟩

/-! ## Claim C1: id monotonicity and counter persistence -/

theorem addMemory_counter_spec (env : Env Emb) (s : BrainState Emb)
    (t src : JSString) (hInv : CounterInv s) :
    CounterInv (addMemory env s t src).state
    ∧ recIds (addMemory env s t src).state =
        recIds s ++ (match (addMemory env s t src).result with
                     | .ok p => [p.1]
                     | .error _ => []) := by
  obtain ⟨hch, hub, hat, hle⟩ := hInv
  by_cases ht : jsTrim t = []
  · have hstate : addMemory env s t src = ⟨s, [], .error .emptyMemory⟩ := by
      simp [addMemory, ht]
    rw [hstate]
    exact ⟨⟨hch, hub, hat, hle⟩, by simp⟩
  · rcases hE : embedStep env { s with memoryIdCounter := s.memoryIdCounter + 1 }
        (jsTrim t) with ⟨evs, res⟩
    cases res with
    | error e =>
      have hstate : addMemory env s t src =
          ⟨{ s with memoryIdCounter := s.memoryIdCounter + 1 }, evs, .error e⟩ := by
        simp [addMemory, ht, hE]
      rw [hstate]
      refine ⟨⟨hch, hub, hat, by simp; omega⟩, by simp [recIds]⟩
    | ok v =>
      have hmem : (addMemory env s t src).state.memories =
          s.memories ++ [⟨s.memoryIdCounter + 1, jsTrim t, src, v, s.time⟩] := by
        simp [addMemory, ht, hE]
      have hmeta : (addMemory env s t src).state.metadataCounter =
          s.memoryIdCounter + 1 := by
        simp [addMemory, ht, hE]
      have hcounter : (addMemory env s t src).state.memoryIdCounter =
          s.memoryIdCounter + 1 := by
        simp [addMemory, ht, hE]
      have hres : (addMemory env s t src).result = .ok (s.memoryIdCounter + 1, t) := by
        simp [addMemory, ht, hE]
      have hrec : recIds (addMemory env s t src).state =
          recIds s ++ [s.memoryIdCounter + 1] := by
        rw [recIds, hmem, List.map_append]
        rfl
      constructor
      · refine ⟨?_, ?_, ?_, ?_⟩
        · rw [hrec, List.chain'_append]
          refine ⟨hch, by simp, ?_⟩
          intro x hx y hy
          simp only [List.head?_cons, Option.mem_def, Option.some.injEq] at hy
          have hx' : x ∈ recIds s := mem_of_getLast_opt (Option.mem_def.mp hx)
          have := hub x hx'
          omega
        · intro i hi
          rw [hrec] at hi
          rw [hmeta]
          rcases List.mem_append.mp hi with h | h
          · have := hub i h
            omega
          · simp at h
            omega
        · right
          rw [hrec, hmeta]
          simp
        · rw [hmeta, hcounter]
      · rw [hrec, hres]

theorem addMemoriesAux_counter_spec (env : Env Emb) (source : JSString) :
    ∀ (ts : List JSString) (s : BrainState Emb) (i total : Nat),
      CounterInv s →
      CounterInv (addMemoriesAux env source s ts i total).1
      ∧ recIds (addMemoriesAux env source s ts i total).1 =
          recIds s ++ (addMemoriesAux env source s ts i total).2.2.1.map (·.1) := by
  intro ts
  induction ts with
  | nil =>
    intro s i total h
    exact ⟨h, by simp [addMemoriesAux]⟩
  | cons t rest ih =>
    intro s i total h
    have hadd := addMemory_counter_spec env s t source h
    rcases hr : (addMemory env s t source).result with e | p
    · rw [hr] at hadd
      refine ⟨?_, ?_⟩
      · simp only [addMemoriesAux, hr]
        exact hadd.1
      · simp only [addMemoriesAux, hr]
        simpa using hadd.2
    · rw [hr] at hadd
      have hih := ih (addMemory env s t source).state (i + 1) total hadd.1
      refine ⟨?_, ?_⟩
      · simp only [addMemoriesAux, hr]
        exact hih.1
      · simp only [addMemoriesAux, hr]
        simp only [List.map_cons]
        rw [hih.2, hadd.2, List.append_assoc]
        rfl

theorem recallOp_state (env : Env Emb) (s : BrainState Emb) (q : JSString) (k : Nat) :
    (recallOp env s q k).state = s := by
  unfold recallOp
  by_cases hq : jsTrim q = []
  · simp [hq]
  · rcases hE : embedStep env s (jsTrim q) with ⟨evs, res⟩
    cases res with
    | error e => simp [hq, hE]
    | ok v =>
      cases hidx : s.voyIndex with
      | none => simp [hq, hE, hidx]
      | some idx => simp [hq, hE, hidx]

theorem initVectorIndex_preserves (s : BrainState Emb) :
    (initVectorIndex s).memories = s.memories
    ∧ (initVectorIndex s).metadataCounter = s.metadataCounter
    ∧ (initVectorIndex s).memoryIdCounter = s.memoryIdCounter := by
  unfold initVectorIndex
  split <;> simp

theorem CounterInv_congr {Emb : Type} {s s' : BrainState Emb}
    (hm : s'.memories = s.memories)
    (hmc : s'.metadataCounter = s.metadataCounter)
    (hic : s.metadataCounter ≤ s'.memoryIdCounter)
    (h : CounterInv s) : CounterInv s' := by
  obtain ⟨hch, hub, hat, hle⟩ := h
  refine ⟨?_, ?_, ?_, ?_⟩
  · simp only [recIds, hm]
    exact hch
  · intro i hi
    simp only [recIds, hm] at hi
    rw [hmc]
    exact hub i hi
  · simp only [recIds, hm, hmc]
    exact hat
  · rw [hmc]
    exact hic

theorem runOp_spec (env : Env Emb) (op : BrainOp) (hop : op ≠ .clear)
    (s : BrainState Emb) (h : CounterInv s) :
    CounterInv (runOp env s op).1
    ∧ recIds (runOp env s op).1 = recIds s ++ (runOp env s op).2 := by
  cases op with
  | add t src =>
    have := addMemory_counter_spec env s t src h
    exact ⟨this.1, this.2⟩
  | addMany ts src =>
    have := addMemoriesAux_counter_spec env src ts s 0 ts.length h
    exact ⟨this.1, this.2⟩
  | query q k =>
    refine ⟨?_, ?_⟩ <;> simp [runOp, recallOp_state, h]
  | clear => exact absurd rfl hop
  | pause =>
    refine ⟨?_, ?_⟩
    · by_cases hp : s.paused
      · simpa [runOp, pause, hp] using h
      · refine CounterInv_congr (by simp [runOp, pause, hp])
          (by simp [runOp, pause, hp]) ?_ h
        have hle : s.metadataCounter ≤ s.memoryIdCounter := h.2.2.2
        simpa [runOp, pause, hp] using hle
    · by_cases hp : s.paused <;> simp [runOp, pause, hp, recIds]
  | resume =>
    have hle : s.metadataCounter ≤ s.memoryIdCounter := h.2.2.2
    refine ⟨?_, ?_⟩
    · by_cases hp : s.paused
      · by_cases hl : s.embedderLoaded
        · refine CounterInv_congr ?_ ?_ ?_ h
          · simp [runOp, resume, hp, hl, (initVectorIndex_preserves _).1]
          · simp [runOp, resume, hp, hl, (initVectorIndex_preserves _).2.1]
          · simpa [runOp, resume, hp, hl, (initVectorIndex_preserves _).2.2] using hle
        · by_cases hok : env.loadEmbedderOk
          · refine CounterInv_congr ?_ ?_ ?_ h
            · simp [runOp, resume, hp, hl, hok, (initVectorIndex_preserves _).1]
            · simp [runOp, resume, hp, hl, hok, (initVectorIndex_preserves _).2.1]
            · simpa [runOp, resume, hp, hl, hok,
                (initVectorIndex_preserves _).2.2] using hle
          · refine CounterInv_congr ?_ ?_ ?_ h
            · simp [runOp, resume, hp, hl, hok]
            · simp [runOp, resume, hp, hl, hok]
            · simpa [runOp, resume, hp, hl, hok] using hle
      · simpa [runOp, resume, hp] using h
    · by_cases hp : s.paused
      · by_cases hl : s.embedderLoaded
        · simp [runOp, resume, hp, hl, recIds, (initVectorIndex_preserves _).1]
        · by_cases hok : env.loadEmbedderOk
          · simp [runOp, resume, hp, hl, hok, recIds, (initVectorIndex_preserves _).1]
          · simp [runOp, resume, hp, hl, hok, recIds]
      · simp [runOp, resume, hp, recIds]
  | restart =>
    refine ⟨CounterInv_congr ?_ ?_ ?_ h, ?_⟩
    · simp [runOp, restart, (initVectorIndex_preserves _).1]
    · simp [runOp, restart, (initVectorIndex_preserves _).2.1]
    · simp [runOp, restart, (initVectorIndex_preserves _).2.2]
    · simp [runOp, restart, recIds, (initVectorIndex_preserves _).1]

theorem runOps_spec (env : Env Emb) :
    ∀ (ops : List BrainOp) (s : BrainState Emb), CounterInv s →
      (∀ op ∈ ops, op ≠ .clear) →
      CounterInv (runOps env s ops).1
      ∧ recIds (runOps env s ops).1 =
          recIds s ++ ((runOps env s ops).2).flatten := by
  intro ops
  induction ops with
  | nil =>
    intro s h _
    exact ⟨h, by simp [runOps]⟩
  | cons op rest ih =>
    intro s h hnc
    have hop := runOp_spec env op (hnc op (List.mem_cons_self op rest)) s h
    have hih := ih (runOp env s op).1 hop.1
      (fun x hx => hnc x (List.mem_cons_of_mem _ hx))
    refine ⟨?_, ?_⟩
    · simp only [runOps]
      exact hih.1
    · simp only [runOps, List.flatten_cons]
      rw [hih.2, hop.2, List.append_assoc]

/-- C1: along any operation sequence without `clear()` (including operations
that fail and application restarts whose `init()` succeeds), starting from
any state satisfying the id/counter invariant: the invariant is preserved at
every step — in particular after every successful `add` the persisted
`memoryIdCounter` metadata is an upper bound of, and is attained by, the
stored ids, i.e. it equals the highest id ever successfully assigned, never
a stale value — the stored-record id list is exactly the initial ids followed
by the ids assigned by the trace's successful `add`s in order, and that whole
id sequence is strictly increasing (ids are unique and never reused). -/
theorem addMemory_ids_monotone_counter_persisted (env : Env Emb)
    (s₀ : BrainState Emb) (ops : List BrainOp)
    (h0 : CounterInv s₀) (hnc : BrainOp.clear ∉ ops) :
    ∀ n : Nat,
      CounterInv (runOps env s₀ (ops.take n)).1
      ∧ recIds (runOps env s₀ (ops.take n)).1 =
          recIds s₀ ++ ((runOps env s₀ (ops.take n)).2).flatten
      ∧ List.Chain' (· < ·)
          (recIds s₀ ++ ((runOps env s₀ (ops.take n)).2).flatten) := by
  intro n
  have hsub : ∀ op ∈ ops.take n, op ≠ .clear :=
    fun op hop he => hnc (he ▸ List.take_subset n ops hop)
  obtain ⟨hinv, hids⟩ := runOps_spec env (ops.take n) s₀ h0 hsub
  refine ⟨hinv, hids, ?_⟩
  rw [← hids]
  exact hinv.1

/-- The trace used by the C1 witness: a successful add (id 1), an add whose
embedding fails (counter runs ahead, nothing persisted), a restart (counter
reloaded from metadata), then another successful add (id 2). -/
def c1ops : List BrainOp :=
  [.add "a.".data "manual".data, .add "b.".data "manual".data, .restart,
   .add "c.".data "manual".data]

/-- Witness for C1 on the concrete trace `c1ops` starting from the fresh
ready state. -/
theorem addMemory_ids_monotone_counter_persisted_witness :
    (CounterInv readyState ∧ BrainOp.clear ∉ c1ops)
    ∧ (CounterInv (runOps okEnv readyState (c1ops.take 4)).1
       ∧ recIds (runOps okEnv readyState (c1ops.take 4)).1 =
           recIds readyState ++ ((runOps okEnv readyState (c1ops.take 4)).2).flatten
       ∧ List.Chain' (· < ·)
           (recIds readyState ++
             ((runOps okEnv readyState (c1ops.take 4)).2).flatten)) :=
  ⟨⟨by decide, by decide⟩,
   addMemory_ids_monotone_counter_persisted okEnv readyState c1ops
     (by decide) (by decide) 4⟩

end LocalLLM
